import Mathlib

/-!
Verification development for the `oss-fuzz-gen` experiment runner.

The Python sources under scrutiny are
* `agent/base_agent.py` — the agent interaction loop helpers
  (`_parse_tag`, `_filter_code`, `_format_bash_execution_result`,
  `_container_handle_bash_command`), and
* `run_all_experiments.py` — the experiment orchestrator
  (`get_experiment_configs`, `run_experiments`, `parse_args`,
  `_save_best_target`, `main`).

Python strings are embedded as `List Char`; the relevant string builtins
(`str.strip`, `str.splitlines`, `str.startswith`, `str.endswith`,
`'\n'.join`, `os.path.join`, `os.path.splitext`) are given explicit
executable models below.
-/

set_option autoImplicit false

/-- Python strings are modelled as lists of characters. -/
abbrev Str := List Char

/-- `begins pat s` models Python `s.startswith(pat)`. -/
def begins : Str → Str → Bool
  | [], _ => true
  | _ :: _, [] => false
  | a :: pat, b :: s => a == b && begins pat s

theorem begins_iff (pat s : Str) : begins pat s = true ↔ ∃ t, s = pat ++ t := by
  induction pat generalizing s with
  | nil => simp [begins]
  | cons a pat ih =>
    cases s with
    | nil => simp [begins]
    | cons b s =>
      simp only [begins, Bool.and_eq_true, beq_iff_eq, ih]
      constructor
      · rintro ⟨rfl, t, rfl⟩
        exact ⟨t, rfl⟩
      · rintro ⟨t, h⟩
        cases h
        exact ⟨rfl, t, rfl⟩

theorem begins_drop (pat s : Str) (h : begins pat s = true) :
    s = pat ++ s.drop pat.length := by
  obtain ⟨t, rfl⟩ := (begins_iff pat s).1 h
  simp

/-- `endsIn pat s` models Python `s.endswith(pat)`. -/
def endsIn (pat s : Str) : Bool := begins pat.reverse s.reverse

/-- The characters Python `str.strip()` removes (the ASCII core of
Python's whitespace set; the claims involve no exotic whitespace). -/
def pyIsSpace (c : Char) : Bool :=
  c = ' ' || c = '\t' || c = '\n' || c = '\r' || c = '\x0b' || c = '\x0c'

/-- Models Python `s.strip()`: remove leading and trailing whitespace. -/
def pyStrip (s : Str) : Str :=
  ((s.dropWhile pyIsSpace).reverse.dropWhile pyIsSpace).reverse

/-- The line boundaries recognised by Python `str.splitlines` (plus the
two-character boundary CR LF, handled in `splitlines` itself). -/
def isLineBreak (c : Char) : Bool :=
  c = '\n' || c = '\r' || c = '\x0b' || c = '\x0c' ||
  c = '\x1c' || c = '\x1d' || c = '\x1e' || c = '\x85' ||
  c = '\u2028' || c = '\u2029'

/-- Prepend a character to the first line of a line list (used to build
`splitlines` structurally). -/
def consHead (c : Char) : List Str → List Str
  | [] => [[c]]
  | l :: ls => (c :: l) :: ls

/-- Models Python `s.splitlines()`: split at every line boundary,
treating CR LF as one boundary; a trailing boundary produces no trailing
empty line. -/
def splitlines : Str → List Str
  | [] => []
  | c :: rest =>
    if isLineBreak c then
      match rest with
      | [] => [[]]
      | d :: r => if c = '\r' && d = '\n' then [] :: splitlines r
                  else [] :: splitlines (d :: r)
    else consHead c (splitlines rest)

/-- Models Python `'\n'.join(lines)`. -/
def joinLines : List Str → Str
  | [] => []
  | [l] => l
  | l :: l' :: ls => l ++ '\n' :: joinLines (l' :: ls)

/-! ### `agent/base_agent.py` -/

/-- The literal open tag the pattern in `_parse_tag` starts with:
`<{tag}>`. -/
def openTagOf (tag : Str) : Str := '<' :: (tag ++ ['>'])

/-- The literal close tag the pattern in `_parse_tag` ends with:
`</{tag}>`. -/
def closeTagOf (tag : Str) : Str := '<' :: '/' :: (tag ++ ['>'])

/-- Splits `s` at the first (leftmost) occurrence of `pat`, returning
the part before the occurrence and the part after it.  This is the
lazy-group behaviour of `(.*?)` followed by a literal in a Python
regular expression under `re.DOTALL`. -/
def splitAtFirst (pat : Str) : Str → Option (Str × Str)
  | [] => if begins pat [] then some ([], []) else none
  | c :: rest =>
    if begins pat (c :: rest) then some ([], (c :: rest).drop pat.length)
    else
      match splitAtFirst pat rest with
      | some (a, b) => some (c :: a, b)
      | none => none

/-- Models `re.search(rf'<tag>(.*?)</tag>', s, re.DOTALL)`: try each
start position from the left; at the first position where the open tag
matches and the close tag occurs later, return the (lazy, i.e. shortest)
text strictly between them. -/
def searchTag (op cl : Str) : Str → Option Str
  | [] =>
    if begins op [] then
      match splitAtFirst cl (([] : Str).drop op.length) with
      | some (inner, _) => some inner
      | none => none
    else none
  | c :: rest =>
    if begins op (c :: rest) then
      match splitAtFirst cl ((c :: rest).drop op.length) with
      | some (inner, _) => some inner
      | none => searchTag op cl rest
    else searchTag op cl rest

/-- Models `BaseAgent._parse_tag`: regex-search for the first
`<tag>...</tag>` block (dot matches newlines) and return the stripped
group, or the empty string when there is no match. -/
def parse_tag (response tag : Str) : Str :=
  match searchTag (openTagOf tag) (closeTagOf tag) response with
  | some inner => pyStrip inner
  | none => []

/-- The per-line predicate of `BaseAgent._filter_code`: a line is kept
unless its stripped content starts with three backticks. -/
def keepLine (l : Str) : Bool := !(begins "```".data (pyStrip l))

/-- Models `BaseAgent._filter_code`: drop every line whose stripped
content starts with a markdown fence and rejoin with newlines. -/
def filter_code (raw_code_block : Str) : Str :=
  joinLines ((splitlines raw_code_block).filter keepLine)

/-- Models `subprocess.CompletedProcess` as consumed by
`_format_bash_execution_result`. -/
structure CompletedProcess where
  args : Str
  returncode : Int
  stdout : Str
  stderr : Str
deriving DecidableEq

/-- Models `BaseAgent._format_bash_execution_result`: the four labelled
fields, in the fixed order invocation / return code / stdout / stderr. -/
def format_bash_execution_result (process : CompletedProcess) : Str :=
  "<bash>\n".data ++ process.args ++ "\n</bash>\n<return code>\n".data ++
  (toString process.returncode).data ++ "\n</return code>\n<stdout>\n".data ++
  process.stdout ++ "\n</stdout>\n<stderr>\n".data ++
  process.stderr ++ "\n</stderr>\n".data

/-- The `BaseTool` collaborator: a command executor plus a usage
description (`tutorial`); its internals are outside `src/`. -/
structure ToolModel where
  execute : Str → CompletedProcess
  tutorial : Str

/-- The fixed text prepended to the tool tutorial when no bash command
was extracted from the model reply. -/
def noBashCommandMsg : Str :=
  "No bash command received, Please follow the interaction protocols:\n".data

/-- The outcome of one round of `_container_handle_bash_command`: the
text handed to the prompt builder, and the warning log entry (round
number and raw reply), if one was emitted. -/
structure HandleOutcome (P : Type) where
  prompt : P
  warning : Option (Nat × Str)
deriving DecidableEq

/-- Models `BaseAgent._container_handle_bash_command`.  The
`DefaultTemplateBuilder(...).build([])` collaborator is abstracted as
`build`, turning the computed prompt text into an opaque `Prompt`. -/
def container_handle_bash_command {P : Type} (build : Str → P)
    (cur_round : Nat) (response : Str) (tool : ToolModel) : HandleOutcome P :=
  let command := parse_tag response "bash".data
  if command ≠ [] then
    ⟨build (format_bash_execution_result (tool.execute command)), none⟩
  else
    ⟨build (noBashCommandMsg ++ tool.tutorial), some (cur_round, response)⟩

/-! ### `run_all_experiments.py` -/

/-- The fields of `benchmarklib.Benchmark` that `run_all_experiments.py`
reads (`id`, `project`, `function_signature`, `function_name`); the
class itself lives outside `src/`. -/
structure Benchmark where
  id : Str
  project : Str
  function_signature : Str
  function_name : Str
deriving DecidableEq

/-- Modelled from the spec: `run_one_experiment.AggregatedResult` is not
under `src/`; per the spec an Aggregated Outcome carries a scalar
coverage differential and a reference to the best candidate artifact
file.  The float differential is modelled as a rational. -/
structure AggregatedResult where
  max_line_coverage_diff : Rat
  max_coverage_diff_sample : Str
deriving DecidableEq

/-- The union type of `Result.result` in `run_all_experiments.py`:
`run_one_experiment.AggregatedResult | str`. -/
inductive ResultValue where
  | aggregated : AggregatedResult → ResultValue
  | failure : Str → ResultValue
deriving DecidableEq

/-- Models the `Result` class of `run_all_experiments.py`. -/
structure Result where
  benchmark : Benchmark
  result : ResultValue
deriving DecidableEq

/-- The command-line arguments of `run_all_experiments.py` after
`argparse` type conversion, as read by `parse_args` validation and the
rest of the module.  Optional string arguments default to the empty
string (or `None`, which is equally falsy), so absence is modelled as
`[]`. -/
structure Args where
  num_samples : Int
  temperature : Rat
  cloud_experiment_name : Str
  cloud_experiment_bucket : Str
  cloud_save_bucket : Str
  benchmarks_directory : Str
  benchmark_yaml : Str
  run_timeout : Int
  ai_binary : Str
  model : Str
  template_directory : Str
  work_dir : Str
  context : Bool
  delay : Int
deriving DecidableEq

/-- Models the assertion block at the end of `parse_args`: `true` means
every assertion passes, `false` means the program aborts with an
`AssertionError` before any experiment is scheduled.  `isDir` models
`os.path.isdir`.  Note the Python truthiness guards: the positivity
assert on `--num-samples` and the range assert on `--temperature` are
only evaluated when the value is non-zero. -/
def validate_args (isDir : Str → Bool) (a : Args) : Bool :=
  (if a.num_samples ≠ 0 then decide (a.num_samples > 0) else true) &&
  (if a.temperature ≠ 0 then decide (0 ≤ a.temperature ∧ a.temperature ≤ 2)
   else true) &&
  (if a.benchmark_yaml ≠ [] then
     endsIn ".yaml".data a.benchmark_yaml || endsIn "yml".data a.benchmark_yaml
   else true) &&
  (decide (a.benchmark_yaml ≠ []) != decide (a.benchmarks_directory ≠ [])) &&
  isDir a.template_directory &&
  (decide (a.cloud_experiment_name ≠ []) ==
    decide (a.cloud_experiment_bucket ≠ []))

/-- Models `os.path.join` for one path component (POSIX rules). -/
def path_join (d f : Str) : Str :=
  if begins ['/'] f then f
  else if d = [] || endsIn ['/'] d then d ++ f
  else d ++ '/' :: f

/-- The filename filter in `get_experiment_configs`:
`file.endswith('.yaml') or file.endswith('yml')`. -/
def isYamlName (f : Str) : Bool := endsIn ".yaml".data f || endsIn "yml".data f

/-- Models `get_experiment_configs`.  The filesystem listing
(`os.listdir`) and the YAML loader (`benchmarklib.Benchmark.from_yaml`,
which yields a list of benchmarks per file) are collaborators outside
`src/`, passed as functions. -/
def get_experiment_configs (listdir : Str → List Str)
    (from_yaml : Str → List Benchmark) (args : Args) :
    List (Benchmark × Args) :=
  let benchmark_yamls :=
    if args.benchmark_yaml ≠ [] then [args.benchmark_yaml]
    else
      ((listdir args.benchmarks_directory).filter isYamlName).map
        (fun file => path_join args.benchmarks_directory file)
  (benchmark_yamls.flatMap from_yaml).map (fun config => (config, args))

/-- The fixed message prepended to the exception text in
`run_experiments`. -/
def excMsg : Str := "Exception while running experiment: ".data

/-- Models `run_experiments`.  Everything inside its `try` block
(`WorkDirs`, `models.LLM.setup` and `run_one_experiment.run`, all
outside `src/`) is abstracted as one fallible `pipeline`; an
`Except.error` is any raised exception, carrying its display text. -/
def run_experiments (pipeline : Benchmark → Args → Except Str AggregatedResult)
    (benchmark : Benchmark) (args : Args) : Result :=
  match pipeline benchmark args with
  | Except.ok r => ⟨benchmark, ResultValue.aggregated r⟩
  | Except.error e => ⟨benchmark, ResultValue.failure (excMsg ++ e)⟩

/-- The sequential branch of `main` (`NUM_EXP == 1`): a loop appending
`run_experiments(*config)` for each config in order. -/
def runSequential (pipeline : Benchmark → Args → Except Str AggregatedResult) :
    List (Benchmark × Args) → List Result
  | [] => []
  | config :: rest =>
    run_experiments pipeline config.1 config.2 :: runSequential pipeline rest

/-- The submission loop of the pool branch of `main`: one
`apply_async` task per config, appended in submission order; a task's
eventual value is `run_experiments` of its own config, computed in a
worker process. -/
def submitAll (pipeline : Benchmark → Args → Except Str AggregatedResult) :
    List (Benchmark × Args) → List Result
  | [] => []
  | config :: rest =>
    run_experiments pipeline config.1 config.2 :: submitAll pipeline rest

/-- The gathering comprehension `[task.get() for task in
experiment_tasks]`: blocks on each task in submission order and collects
its value. -/
def gatherResults : List Result → List Result
  | [] => []
  | task :: rest => task :: gatherResults rest

/-- The completion callbacks (`callback=_print_experiment_result`): the
streamed reports fire in completion order, here an arbitrary list of
task indices. -/
def streamedReports (tasks : List Result) (completionOrder : List Nat) :
    List Result :=
  completionOrder.filterMap (fun i => tasks.get? i)

/-- The pool branch of `main` (`NUM_EXP > 1`): submit every config,
stream per-completion reports in completion order, and assemble the
authoritative result list by gathering every task in submission
order. -/
def runParallel (pipeline : Benchmark → Args → Except Str AggregatedResult)
    (configs : List (Benchmark × Args)) (completionOrder : List Nat) :
    List Result × List Result :=
  let tasks := submitAll pipeline configs
  (streamedReports tasks completionOrder, gatherResults tasks)

/-- The scheduling dispatch of `main`: sequential in-process execution
when `NUM_EXP` is 1, otherwise the worker pool.  Returns the
authoritative `experiment_results` list. -/
def mainRun (numExp : Nat)
    (pipeline : Benchmark → Args → Except Str AggregatedResult)
    (configs : List (Benchmark × Args)) (completionOrder : List Nat) :
    List Result :=
  if numExp = 1 then runSequential pipeline configs
  else (runParallel pipeline configs completionOrder).2

/-- Models `os.path.splitext(p)[1]`: the extension of the final path
component, where leading dots of the component do not start an
extension. -/
def splitext_ext (p : Str) : Str :=
  let base := (p.reverse.takeWhile (fun c => c ≠ '/')).reverse
  let rest := base.dropWhile (fun c => c = '.')
  let revRest := rest.reverse
  let revExt := revRest.takeWhile (fun c => c ≠ '.')
  if revExt.length = revRest.length then [] else '.' :: revExt.reverse

/-- The upload key `_save_best_target` builds for one aggregated
result.  `covStr` renders the float coverage differential
(f-string formatting); `rand_id` and `exp_name` are fixed before the
loop. -/
def saveNameOf (covStr : Rat → Str) (rand_id exp_name : Str) (r : Result)
    (a : AggregatedResult) : Str :=
  "llm_generated_targets/".data ++ r.benchmark.project ++ '/' ::
    (r.benchmark.function_name ++ '-' ::
      (covStr a.max_line_coverage_diff ++ '-' ::
        (exp_name ++ '-' ::
          (rand_id ++ splitext_ext a.max_coverage_diff_sample))))

/-- The loop of `_save_best_target`: skip non-aggregated results, build
the save name, and upload (`blob.upload_from_filename`) only when the
best coverage differential is strictly positive.  The returned list
collects each performed upload as (destination key, local file). -/
def saveLoop (covStr : Rat → Str) (rand_id exp_name : Str) :
    List Result → List (Str × Str)
  | [] => []
  | r :: rest =>
    match r.result with
    | ResultValue.failure _ => saveLoop covStr rand_id exp_name rest
    | ResultValue.aggregated a =>
      if a.max_line_coverage_diff > 0 then
        (saveNameOf covStr rand_id exp_name r a,
          a.max_coverage_diff_sample) :: saveLoop covStr rand_id exp_name rest
      else saveLoop covStr rand_id exp_name rest

/-- Models `_save_best_target`.  The random id is drawn once before the
loop (`str(uuid.uuid4()).split('-', maxsplit=1)[0]`, modelled by
`uuid`), and the experiment label defaults to date-hostname when no
name was supplied.  The storage client is the upload sink; the function
is summarised by the list of uploads it performs.  The bucket argument
only selects the upload destination and does not affect the keys. -/
def save_best_target (covStr : Rat → Str) (uuid today hostname : Str)
    (results : List Result) (_save_bucket exp_name : Str) :
    List (Str × Str) :=
  let rand_id := uuid.takeWhile (fun c => c ≠ '-')
  let exp_name' := if exp_name = [] then today ++ '-' :: hostname else exp_name
  saveLoop covStr rand_id exp_name' results

/-! ### Correctness of the tag search (`_parse_tag`) -/

/-- Claim-side predicate: `s` contains a well-formed `op ... cl` block
(the close tag somewhere at or after the end of the open tag). -/
def HasTagBlock (op cl s : Str) : Prop :=
  ∃ pre mid post, s = pre ++ op ++ mid ++ cl ++ post

/-- Claim-side predicate: `inner` is the inner text of the first
occurrence of an `op ... cl` block in `s`: no block starts earlier
(no occurrence of `op` before `pre` ends), and the close tag is the
first one after the open tag (no occurrence of `cl` inside `inner`'s
span). -/
def FirstBlockInner (op cl s inner : Str) : Prop :=
  ∃ pre post,
    s = pre ++ op ++ inner ++ cl ++ post ∧
    (∀ i, i < pre.length → begins op (s.drop i) = false) ∧
    (∀ k, k < inner.length → begins cl ((inner ++ cl ++ post).drop k) = false)

theorem splitAtFirst_some (pat : Str) : ∀ (s a b : Str),
    splitAtFirst pat s = some (a, b) →
    s = a ++ pat ++ b ∧ ∀ i, i < a.length → begins pat (s.drop i) = false := by
  intro s
  induction s with
  | nil =>
    intro a b h
    unfold splitAtFirst at h
    split at h
    · next hp =>
      obtain ⟨t, ht⟩ := (begins_iff pat []).1 hp
      have hpat : pat = [] := by
        cases pat with
        | nil => rfl
        | cons x xs => simp at ht
      simp only [Option.some.injEq, Prod.mk.injEq] at h
      obtain ⟨rfl, rfl⟩ := h
      refine ⟨by simp [hpat], ?_⟩
      intro i hi
      simp at hi
    · simp at h
  | cons c rest ih =>
    intro a b h
    unfold splitAtFirst at h
    split at h
    · next hp =>
      simp only [Option.some.injEq, Prod.mk.injEq] at h
      obtain ⟨rfl, rfl⟩ := h
      refine ⟨by simpa using begins_drop pat (c :: rest) hp, ?_⟩
      intro i hi
      simp at hi
    · next hp =>
      have hp' : begins pat (c :: rest) = false := by
        cases hb : begins pat (c :: rest) with
        | true => exact absurd hb hp
        | false => rfl
      cases hsp : splitAtFirst pat rest with
      | some ab =>
        obtain ⟨a', b'⟩ := ab
        rw [hsp] at h
        simp only [Option.some.injEq, Prod.mk.injEq] at h
        obtain ⟨rfl, rfl⟩ := h
        obtain ⟨hdec, hmin⟩ := ih a' b' hsp
        refine ⟨by simp [hdec], ?_⟩
        intro i hi
        cases i with
        | zero => simpa using hp'
        | succ i' =>
          have : i' < a'.length := by simpa using Nat.lt_of_succ_lt_succ hi
          simpa using hmin i' this
      | none =>
        rw [hsp] at h
        simp at h

theorem splitAtFirst_none (pat : Str) : ∀ (s : Str),
    splitAtFirst pat s = none → ∀ a b, s ≠ a ++ pat ++ b := by
  intro s
  induction s with
  | nil =>
    intro h a b heq
    unfold splitAtFirst at h
    split at h
    · simp at h
    · next hp =>
      have heq' := heq.symm
      simp only [List.append_eq_nil] at heq'
      obtain ⟨⟨rfl, rfl⟩, rfl⟩ := heq'
      exact hp (by simp [begins])
  | cons c rest ih =>
    intro h a b heq
    unfold splitAtFirst at h
    split at h
    · simp at h
    · next hp =>
      cases hsp : splitAtFirst pat rest with
      | some ab => rw [hsp] at h; simp at h
      | none =>
        cases a with
        | nil =>
          exact hp ((begins_iff pat (c :: rest)).2 ⟨b, by simpa using heq⟩)
        | cons a0 a' =>
          simp only [List.cons_append, List.cons.injEq] at heq
          exact ih hsp a' b heq.2

theorem searchTag_some (op cl : Str) : ∀ (s inner : Str),
    searchTag op cl s = some inner → FirstBlockInner op cl s inner := by
  intro s
  induction s with
  | nil =>
    intro inner h
    unfold searchTag at h
    split at h
    · next hop =>
      cases hsp : splitAtFirst cl (([] : Str).drop op.length) with
      | some ab =>
        obtain ⟨a, b⟩ := ab
        rw [hsp] at h
        simp only [Option.some.injEq] at h
        subst h
        obtain ⟨hdec, hmin⟩ := splitAtFirst_some cl _ _ _ hsp
        obtain ⟨t, ht⟩ := (begins_iff op []).1 hop
        have hop0 : op = [] := by
          cases op with
          | nil => rfl
          | cons x xs => simp at ht
        have hdec' : ([] : Str) = a ++ cl ++ b := by simpa using hdec
        have hdec'' := hdec'.symm
        simp only [List.append_eq_nil] at hdec''
        obtain ⟨⟨rfl, rfl⟩, rfl⟩ := hdec''
        unfold FirstBlockInner
        refine ⟨[], [], by simp [hop0], ?_, ?_⟩
        · intro i hi; simp at hi
        · intro k hk; simp at hk
      | none => rw [hsp] at h; simp at h
    · simp at h
  | cons c rest ih =>
    intro inner h
    unfold searchTag at h
    split at h
    · next hop =>
      cases hsp : splitAtFirst cl ((c :: rest).drop op.length) with
      | some ab =>
        obtain ⟨a, b⟩ := ab
        rw [hsp] at h
        simp only [Option.some.injEq] at h
        subst h
        obtain ⟨hdec, hmin⟩ := splitAtFirst_some cl _ _ _ hsp
        refine ⟨[], b, ?_, ?_, ?_⟩
        · have := begins_drop op (c :: rest) hop
          conv_lhs => rw [this]
          rw [hdec]
          simp
        · intro i hi; simp at hi
        · intro k hk
          have := hmin k hk
          rwa [hdec] at this
      | none =>
        rw [hsp] at h
        obtain ⟨pre', post', hdec, hpre, hcl⟩ := ih inner h
        exfalso
        have hs : c :: rest = (c :: (pre' ++ op ++ inner)) ++ (cl ++ post') := by
          simp [hdec]
        have hlen : op.length ≤ (c :: (pre' ++ op ++ inner)).length := by
          simp
          omega
        have hdrop : (c :: rest).drop op.length =
            ((c :: (pre' ++ op ++ inner)).drop op.length) ++ cl ++ post' := by
          rw [hs, List.drop_append_eq_append_drop, Nat.sub_eq_zero_of_le hlen]
          simp
        exact splitAtFirst_none cl _ hsp _ _ hdrop
    · next hop =>
      have hop' : begins op (c :: rest) = false := by
        cases hb : begins op (c :: rest) with
        | true => exact absurd hb hop
        | false => rfl
      obtain ⟨pre', post', hdec, hpre, hcl⟩ := ih inner h
      refine ⟨c :: pre', post', by simp [hdec], ?_, hcl⟩
      intro i hi
      cases i with
      | zero => simpa using hop'
      | succ i' =>
        have : i' < pre'.length := by simpa using Nat.lt_of_succ_lt_succ hi
        simpa using hpre i' this

theorem searchTag_none (op cl : Str) : ∀ (s : Str),
    searchTag op cl s = none → ¬ HasTagBlock op cl s := by
  intro s
  induction s with
  | nil =>
    intro h hblk
    obtain ⟨pre, mid, post, heq⟩ := hblk
    have heq' := heq.symm
    simp only [List.append_eq_nil] at heq'
    obtain ⟨⟨⟨⟨rfl, rfl⟩, rfl⟩, rfl⟩, rfl⟩ := heq'
    simp [searchTag, splitAtFirst, begins] at h
  | cons c rest ih =>
    intro h hblk
    obtain ⟨pre, mid, post, heq⟩ := hblk
    unfold searchTag at h
    split at h
    · next hop =>
      cases hsp : splitAtFirst cl ((c :: rest).drop op.length) with
      | some ab => rw [hsp] at h; simp at h
      | none =>
        rw [hsp] at h
        cases pre with
        | nil =>
          simp only [List.nil_append] at heq
          have hdrop : (c :: rest).drop op.length = mid ++ (cl ++ post) := by
            rw [heq]
            rw [show op ++ mid ++ cl ++ post = op ++ (mid ++ (cl ++ post)) by simp]
            exact List.drop_left op _
          exact splitAtFirst_none cl _ hsp mid post (by simpa using hdrop)
        | cons p0 pre' =>
          simp only [List.cons_append, List.cons.injEq] at heq
          exact ih h ⟨pre', mid, post, heq.2⟩
    · next hop =>
      cases pre with
      | nil =>
        refine hop ((begins_iff op (c :: rest)).2 ⟨mid ++ cl ++ post, ?_⟩)
        simpa using heq
      | cons p0 pre' =>
        simp only [List.cons_append, List.cons.injEq] at heq
        exact ih h ⟨pre', mid, post, heq.2⟩

/-- **C3.** For every reply text and tag name, `_parse_tag` either finds
the first well-formed `<tag>...</tag>` block (matching across lines) and
returns its stripped inner text, or — when the reply contains no such
block — returns the empty string.  The function is total, so extraction
never raises. -/
theorem parse_tag_first_block (response tag : Str) :
    (∃ inner, FirstBlockInner (openTagOf tag) (closeTagOf tag) response inner ∧
      parse_tag response tag = pyStrip inner) ∨
    (¬ HasTagBlock (openTagOf tag) (closeTagOf tag) response ∧
      parse_tag response tag = []) := by
  cases h : searchTag (openTagOf tag) (closeTagOf tag) response with
  | some inner =>
    exact Or.inl ⟨inner, searchTag_some _ _ _ _ h, by simp [parse_tag, h]⟩
  | none =>
    exact Or.inr ⟨searchTag_none _ _ _ h, by simp [parse_tag, h]⟩

/-! ### Correctness of the code-block filter (`_filter_code`) -/

theorem splitlines_cons_nobreak (c : Char) (rest : Str)
    (h : isLineBreak c = false) :
    splitlines (c :: rest) = consHead c (splitlines rest) := by
  rw [splitlines.eq_def]
  simp [h]

theorem splitlines_cons_break (c d : Char) (r : Str)
    (h : isLineBreak c = true)
    (hcd : (decide (c = '\x0d') && decide (d = '\n')) = false) :
    splitlines (c :: d :: r) = [] :: splitlines (d :: r) := by
  rw [splitlines.eq_def]
  simp [h, hcd]

theorem splitlines_break_free : ∀ (s : Str), ∀ l ∈ splitlines s,
    ∀ c ∈ l, isLineBreak c = false := by
  intro s
  induction s using splitlines.induct with
  | case1 => simp [splitlines]
  | case2 c hc =>
    intro l hl c' hc'
    simp [splitlines, hc] at hl
    subst hl
    simp at hc'
  | case3 c hc d r hcd ih =>
    intro l hl c' hc'
    simp only [splitlines, hc, if_true, hcd, if_pos] at hl
    rcases List.mem_cons.1 hl with rfl | hl'
    · simp at hc'
    · exact ih l hl' c' hc'
  | case4 c hc d r hcd ih =>
    intro l hl c' hc'
    have hcd' : (decide (c = '\x0d') && decide (d = '\n')) = false := by
      cases hb : (decide (c = '\x0d') && decide (d = '\n')) with
      | true => exact absurd hb hcd
      | false => rfl
    simp only [splitlines, hc, if_true, hcd', Bool.false_eq_true, if_false] at hl
    rcases List.mem_cons.1 hl with rfl | hl'
    · simp at hc'
    · exact ih l hl' c' hc'
  | case5 c rest hc ih =>
    intro l hl c' hc'
    have hcf : isLineBreak c = false := by
      cases hb : isLineBreak c with
      | true => exact absurd hb hc
      | false => rfl
    rw [splitlines_cons_nobreak c rest hcf] at hl
    cases hrest : splitlines rest with
    | nil =>
      rw [hrest] at hl
      simp only [consHead, List.mem_singleton] at hl
      subst hl
      rcases List.mem_singleton.1 hc' with rfl
      exact hcf
    | cons l0 ls =>
      rw [hrest] at hl
      simp only [consHead] at hl
      rcases List.mem_cons.1 hl with rfl | hl'
      · rcases List.mem_cons.1 hc' with rfl | hc''
        · exact hcf
        · exact ih l0 (by simp [hrest]) c' hc''
      · exact ih l (by simp [hrest, hl']) c' hc'

theorem splitlines_single : ∀ (l : Str), (∀ c ∈ l, isLineBreak c = false) →
    l ≠ [] → splitlines l = [l] := by
  intro l
  induction l with
  | nil => intro _ h; exact absurd rfl h
  | cons c rest ih =>
    intro hbf _
    have hc : isLineBreak c = false := hbf c (by simp)
    rw [splitlines_cons_nobreak c rest hc]
    cases hrest : rest with
    | nil => simp [hrest, splitlines, consHead]
    | cons d r =>
      rw [← hrest]
      have hr : splitlines rest = [rest] := by
        apply ih (fun c' hc' => hbf c' (by simp [hc']))
        simp [hrest]
      rw [hr]
      simp [consHead]

theorem splitlines_append_newline : ∀ (l t : Str),
    (∀ c ∈ l, isLineBreak c = false) →
    splitlines (l ++ '\n' :: t) = l :: splitlines t := by
  intro l
  induction l with
  | nil =>
    intro t _
    cases t with
    | nil => decide
    | cons d r =>
      show splitlines ('\n' :: d :: r) = [] :: splitlines (d :: r)
      exact splitlines_cons_break '\n' d r (by decide) (by simp)
  | cons c rest ih =>
    intro t hbf
    have hc : isLineBreak c = false := hbf c (by simp)
    show splitlines (c :: (rest ++ '\n' :: t)) = (c :: rest) :: splitlines t
    rw [splitlines_cons_nobreak c _ hc]
    rw [ih t (fun c' hc' => hbf c' (by simp [hc']))]
    simp [consHead]

theorem splitlines_joinLines : ∀ (ls : List Str),
    (∀ l ∈ ls, ∀ c ∈ l, isLineBreak c = false) →
    ls.getLast? ≠ some [] → splitlines (joinLines ls) = ls := by
  intro ls
  induction ls with
  | nil => intro _ _; rfl
  | cons l ls ih =>
    intro hbf hlast
    cases ls with
    | nil =>
      have hl : l ≠ [] := by
        intro h
        exact hlast (by simp [h])
      show splitlines l = [l]
      exact splitlines_single l (hbf l (by simp)) hl
    | cons l' ls' =>
      show splitlines (l ++ '\n' :: joinLines (l' :: ls')) = l :: l' :: ls'
      rw [splitlines_append_newline l _ (hbf l (by simp))]
      rw [ih (fun m hm => hbf m (by simp [hm])) (by simpa using hlast)]

/-- **C4, counterexample.**  The claim asserts idempotence for every
input string, but `_filter_code` is not idempotent on `"x\n\n"`:
the first pass yields `"x\n"` (the final `'\n'.join` re-creates the
trailing newline from the kept empty last line), while the second pass
yields `"x"` (`splitlines` drops the trailing empty line). -/
theorem filter_code_not_idempotent :
    filter_code (filter_code "x\n\n".data) ≠ filter_code "x\n\n".data := by
  decide

/-- **C4, amended.**  `_filter_code` removes exactly the lines whose
stripped content starts with three backticks and preserves the order of
the remaining lines; it is idempotent provided the kept-line list does
not end with an empty line (equivalently, the filtered block does not
end in a newline).  Without that proviso re-filtering drops one trailing
empty line, as `filter_code_not_idempotent` shows. -/
theorem filter_code_exact_idempotent (s : Str)
    (h : ((splitlines s).filter keepLine).getLast? ≠ some []) :
    filter_code s = joinLines ((splitlines s).filter keepLine) ∧
    splitlines (filter_code s) = (splitlines s).filter keepLine ∧
    filter_code (filter_code s) = filter_code s := by
  have hbf : ∀ l ∈ (splitlines s).filter keepLine, ∀ c ∈ l, isLineBreak c = false :=
    fun l hl => splitlines_break_free s l (List.mem_of_mem_filter hl)
  have h2 : splitlines (filter_code s) = (splitlines s).filter keepLine := by
    show splitlines (joinLines _) = _
    exact splitlines_joinLines _ hbf h
  refine ⟨rfl, h2, ?_⟩
  show joinLines ((splitlines (filter_code s)).filter keepLine) = filter_code s
  rw [h2]
  have hself : ((splitlines s).filter keepLine).filter keepLine =
      (splitlines s).filter keepLine :=
    List.filter_eq_self.mpr (fun a ha => List.of_mem_filter ha)
  rw [hself]
  rfl

/-- Witness for the amended C4 at a concrete fenced block. -/
theorem filter_code_exact_idempotent_witness :
    filter_code (filter_code "a\n```c\nb".data) = filter_code "a\n```c\nb".data :=
  (filter_code_exact_idempotent ("a\n```c\nb".data) (by decide)).2.2

/-! ### Claim theorems for the agent round handler -/

/-- **C5.**  One round of `_container_handle_bash_command` is total
(never raises) and branches exactly on whether the extracted command is
empty: a non-empty command is executed through the tool and the next
prompt is the Command Record formatted as the four labelled fields in
the fixed order invocation, return code, stdout, stderr (whatever the
return code, i.e. for failing executions too); an empty command (tag
missing or empty) emits a warning carrying the round number and the raw
reply, and the next prompt is built from the tool's usage
description. -/
theorem round_handling_spec {P : Type} (build : Str → P) (tool : ToolModel)
    (cur_round : Nat) (response : Str) :
    (parse_tag response "bash".data ≠ [] →
      container_handle_bash_command build cur_round response tool =
        ⟨build (format_bash_execution_result
          (tool.execute (parse_tag response "bash".data))), none⟩ ∧
      ∀ command, format_bash_execution_result (tool.execute command) =
        "<bash>\n".data ++ (tool.execute command).args ++
        "\n</bash>\n<return code>\n".data ++
        (toString (tool.execute command).returncode).data ++
        "\n</return code>\n<stdout>\n".data ++ (tool.execute command).stdout ++
        "\n</stdout>\n<stderr>\n".data ++ (tool.execute command).stderr ++
        "\n</stderr>\n".data) ∧
    (parse_tag response "bash".data = [] →
      container_handle_bash_command build cur_round response tool =
        ⟨build (noBashCommandMsg ++ tool.tutorial),
          some (cur_round, response)⟩) := by
  constructor
  · intro hne
    refine ⟨?_, fun command => rfl⟩
    simp [container_handle_bash_command, hne]
  · intro heq
    simp [container_handle_bash_command, heq]

/-- Witness for C5: both branches at concrete replies (a reply carrying
a bash command, and one without). -/
theorem round_handling_spec_witness :
    (container_handle_bash_command id 3 "<bash> ls </bash>".data
        ⟨fun c => ⟨c, 1, "o".data, "e".data⟩, "use bash".data⟩ =
      ⟨format_bash_execution_result ⟨"ls".data, 1, "o".data, "e".data⟩, none⟩) ∧
    (container_handle_bash_command id 4 "hello".data
        ⟨fun c => ⟨c, 0, [], []⟩, "use bash".data⟩ =
      ⟨noBashCommandMsg ++ "use bash".data, some (4, "hello".data)⟩) := by
  constructor
  · exact ((round_handling_spec id
      ⟨fun c => ⟨c, 1, "o".data, "e".data⟩, "use bash".data⟩ 3
      "<bash> ls </bash>".data).1 (by decide)).1
  · exact (round_handling_spec id
      ⟨fun c => ⟨c, 0, [], []⟩, "use bash".data⟩ 4
      "hello".data).2 (by decide)

/-! ### Claim theorems for the orchestrator -/

theorem runSequential_eq_map (pipeline : Benchmark → Args → Except Str AggregatedResult) :
    ∀ configs : List (Benchmark × Args),
      runSequential pipeline configs =
        configs.map (fun config => run_experiments pipeline config.1 config.2) := by
  intro configs
  induction configs with
  | nil => rfl
  | cons c rest ih => simp [runSequential, ih]

theorem submitAll_eq_map (pipeline : Benchmark → Args → Except Str AggregatedResult) :
    ∀ configs : List (Benchmark × Args),
      submitAll pipeline configs =
        configs.map (fun config => run_experiments pipeline config.1 config.2) := by
  intro configs
  induction configs with
  | nil => rfl
  | cons c rest ih => simp [submitAll, ih]

theorem gatherResults_id : ∀ tasks : List Result, gatherResults tasks = tasks := by
  intro tasks
  induction tasks with
  | nil => rfl
  | cons t rest ih => simp [gatherResults, ih]

/-- **C1.**  With concurrency `P > 1` (the pool branch), `main`'s
authoritative result list has exactly one entry per submitted config —
the result of running that config — in submission order, and it does not
depend on the completion order driving the streamed callbacks. -/
theorem mainRun_parallel_complete (P : Nat) (hP : 1 < P)
    (pipeline : Benchmark → Args → Except Str AggregatedResult)
    (configs : List (Benchmark × Args)) (order order' : List Nat) :
    mainRun P pipeline configs order =
      configs.map (fun config => run_experiments pipeline config.1 config.2) ∧
    (mainRun P pipeline configs order).length = configs.length ∧
    mainRun P pipeline configs order = mainRun P pipeline configs order' := by
  have hne : P ≠ 1 := by omega
  have hrun : ∀ o : List Nat, mainRun P pipeline configs o =
      configs.map (fun config => run_experiments pipeline config.1 config.2) := by
    intro o
    simp only [mainRun, hne, if_false, runParallel, gatherResults_id,
      submitAll_eq_map]
  refine ⟨hrun order, ?_, (hrun order).trans (hrun order').symm⟩
  rw [hrun order]
  simp

/-- Witness for C1 at `P = 2`, two concrete configs and two completion
orders. -/
theorem mainRun_parallel_complete_witness :
    (mainRun 2 (fun _ _ => Except.error "x".data)
        [(⟨"i".data, "p".data, "s".data, "f".data⟩,
          ⟨1, 1, [], [], [], "d".data, [], 30, [], "m".data, "t".data,
            "w".data, false, 0⟩)] [0]).length = 1 :=
  (mainRun_parallel_complete 2 (by decide) (fun _ _ => Except.error "x".data)
    [(⟨"i".data, "p".data, "s".data, "f".data⟩,
      ⟨1, 1, [], [], [], "d".data, [], 30, [], "m".data, "t".data,
        "w".data, false, 0⟩)] [0] [0]).2.1

/-- **C8.**  The sequential branch (`NUM_EXP == 1`) and the pool branch
(`NUM_EXP > 1`) of `main` produce identical result lists, in content and
order, for every config list, pipeline and completion order. -/
theorem mainRun_seq_eq_parallel (P : Nat) (hP : P ≠ 1)
    (pipeline : Benchmark → Args → Except Str AggregatedResult)
    (configs : List (Benchmark × Args)) (order order' : List Nat) :
    mainRun 1 pipeline configs order = mainRun P pipeline configs order' := by
  simp only [mainRun, if_pos rfl, hP, if_false, runParallel, gatherResults_id,
    submitAll_eq_map, runSequential_eq_map, ite_self]

/-- Witness for C8 at `P = 2` and one concrete config. -/
theorem mainRun_seq_eq_parallel_witness :
    mainRun 1 (fun _ _ => Except.ok ⟨1, "t.cc".data⟩)
        [(⟨"i".data, "p".data, "s".data, "f".data⟩,
          ⟨1, 1, [], [], [], "d".data, [], 30, [], "m".data, "t".data,
            "w".data, false, 0⟩)] [] =
      mainRun 2 (fun _ _ => Except.ok ⟨1, "t.cc".data⟩)
        [(⟨"i".data, "p".data, "s".data, "f".data⟩,
          ⟨1, 1, [], [], [], "d".data, [], 30, [], "m".data, "t".data,
            "w".data, false, 0⟩)] [0] :=
  mainRun_seq_eq_parallel 2 (by decide) _ _ [] [0]

/-- **C2.**  When the pipeline of one experiment raises,
`run_experiments` absorbs the exception into a Failure-variant `Result`
that keeps that benchmark's identity and carries a non-empty error
description; and the batch runner still gives every sibling config its
own result, unconditionally. -/
theorem run_experiments_isolates
    (pipeline : Benchmark → Args → Except Str AggregatedResult)
    (b : Benchmark) (args : Args) (e : Str)
    (h : pipeline b args = Except.error e) :
    (run_experiments pipeline b args).benchmark = b ∧
    (∃ msg, (run_experiments pipeline b args).result = ResultValue.failure msg ∧
      msg ≠ []) ∧
    (∀ batch : List (Benchmark × Args),
      runSequential pipeline batch =
        batch.map (fun config => run_experiments pipeline config.1 config.2) ∧
      (runSequential pipeline batch).length = batch.length) := by
  refine ⟨?_, ?_, ?_⟩
  · simp [run_experiments, h]
  · refine ⟨excMsg ++ e, ?_, ?_⟩
    · simp [run_experiments, h]
    · simp [excMsg]
  · intro batch
    refine ⟨runSequential_eq_map pipeline batch, ?_⟩
    rw [runSequential_eq_map pipeline batch]
    simp

/-- Witness for C2: a pipeline that always raises, at a concrete
benchmark. -/
theorem run_experiments_isolates_witness :
    (run_experiments (fun _ _ => Except.error "boom".data)
        ⟨"i".data, "p".data, "s".data, "f".data⟩
        ⟨1, 1, [], [], [], "d".data, [], 30, [], "m".data, "t".data,
          "w".data, false, 0⟩).benchmark = ⟨"i".data, "p".data, "s".data, "f".data⟩ ∧
    (∃ msg, (run_experiments (fun _ _ => Except.error "boom".data)
        ⟨"i".data, "p".data, "s".data, "f".data⟩
        ⟨1, 1, [], [], [], "d".data, [], 30, [], "m".data, "t".data,
          "w".data, false, 0⟩).result = ResultValue.failure msg ∧ msg ≠ []) :=
  ⟨(run_experiments_isolates (fun _ _ => Except.error "boom".data)
      ⟨"i".data, "p".data, "s".data, "f".data⟩
      ⟨1, 1, [], [], [], "d".data, [], 30, [], "m".data, "t".data,
        "w".data, false, 0⟩ "boom".data rfl).1,
    (run_experiments_isolates (fun _ _ => Except.error "boom".data)
      ⟨"i".data, "p".data, "s".data, "f".data⟩
      ⟨1, 1, [], [], [], "d".data, [], 30, [], "m".data, "t".data,
        "w".data, false, 0⟩ "boom".data rfl).2.1⟩

/-! ### Claim theorems for argument validation -/

theorem num_samples_check_iff (n : Int) :
    (if n ≠ 0 then decide (n > 0) else true) = false ↔ n < 0 := by
  by_cases h : n = 0
  · simp [h]
  · simp only [h, ne_eq, not_false_eq_true, if_true, decide_eq_false_iff_not,
      not_lt]
    omega

theorem temperature_check_iff (t : Rat) :
    (if t ≠ 0 then decide (0 ≤ t ∧ t ≤ 2) else true) = false ↔
      (t < 0 ∨ 2 < t) := by
  by_cases h : t = 0
  · subst h
    simp
  · simp only [h, ne_eq, not_false_eq_true, if_true, decide_eq_false_iff_not,
      not_and_or, not_le]

theorem xor_check_iff (p q : Prop) [Decidable p] [Decidable q] :
    (decide p != decide q) = false ↔ ((p ∧ q) ∨ (¬p ∧ ¬q)) := by
  by_cases hp : p <;> by_cases hq : q <;> simp [hp, hq]

theorem eq_check_iff (p q : Prop) [Decidable p] [Decidable q] :
    (decide p == decide q) = false ↔ ((p ∧ ¬q) ∨ (¬p ∧ q)) := by
  by_cases hp : p <;> by_cases hq : q <;> simp [hp, hq]

/-- **C7, counterexample.**  The claim says `parse_args` aborts whenever
the sample count is not a positive integer, but a sample count of `0` is
falsy in Python, so the guarded assertion `if args.num_samples: assert
args.num_samples > 0` is skipped entirely and validation passes. -/
theorem validate_args_zero_samples :
    validate_args (fun _ => true)
        ⟨0, 1, [], [], [], "d".data, [], 30, [], "m".data, "t".data,
          "w".data, false, 0⟩ = true ∧
    ¬(0 < (0 : Int)) := by
  constructor
  · decide
  · decide

set_option maxHeartbeats 2000000 in
/-- **C7, amended.**  `parse_args` validation fails exactly when: the
sample count is negative (zero slips through the truthiness guard), the
temperature lies outside the inclusive range 0..2, a benchmark file is
given whose name matches neither YAML ending accepted by the code, both
benchmark sources are given, neither is given, the template directory
does not exist, or exactly one of the cloud experiment name/bucket pair
is given.  Otherwise validation succeeds. -/
theorem validate_args_false_iff (isDir : Str → Bool) (a : Args) :
    validate_args isDir a = false ↔
      (a.num_samples < 0 ∨
       (a.temperature < 0 ∨ 2 < a.temperature) ∨
       (a.benchmark_yaml ≠ [] ∧ endsIn ".yaml".data a.benchmark_yaml = false ∧
         endsIn "yml".data a.benchmark_yaml = false) ∨
       (a.benchmark_yaml ≠ [] ∧ a.benchmarks_directory ≠ []) ∨
       (a.benchmark_yaml = [] ∧ a.benchmarks_directory = []) ∨
       isDir a.template_directory = false ∨
       (a.cloud_experiment_name ≠ [] ∧ a.cloud_experiment_bucket = []) ∨
       (a.cloud_experiment_name = [] ∧ a.cloud_experiment_bucket ≠ [])) := by
  simp only [validate_args, Bool.and_eq_false_iff]
  rw [num_samples_check_iff, temperature_check_iff, xor_check_iff, eq_check_iff]
  have hyaml : (if a.benchmark_yaml ≠ [] then
      endsIn ".yaml".data a.benchmark_yaml || endsIn "yml".data a.benchmark_yaml
      else true) = false ↔
      (a.benchmark_yaml ≠ [] ∧ endsIn ".yaml".data a.benchmark_yaml = false ∧
        endsIn "yml".data a.benchmark_yaml = false) := by
    by_cases h : a.benchmark_yaml = []
    · simp [h]
    · simp [h, Bool.or_eq_false_iff]
  rw [hyaml]
  simp only [not_not, ne_eq]
  tauto

/-! ### Claim theorems for config expansion -/

/-- **C9, counterexample.**  The directory filter accepts any name
ending in the three letters `yml`, dot or no dot: a file named `ayml`
has no YAML extension (it ends neither in `.yaml` nor in `.yml`), yet
`get_experiment_configs` builds configs from it, contradicting "no
configs from files with other extensions". -/
theorem configs_dotless_yml :
    endsIn ".yaml".data "ayml".data = false ∧
    endsIn ".yml".data "ayml".data = false ∧
    get_experiment_configs (fun _ => ["ayml".data])
        (fun _ => [⟨"i".data, "p".data, "s".data, "f".data⟩])
        ⟨1, 1, [], [], [], "d".data, [], 30, [], "m".data, "t".data,
          "w".data, false, 0⟩ ≠ [] := by
  refine ⟨by decide, by decide, by decide⟩

/-- **C9, amended.**  Given a benchmarks directory and no single
benchmark file, `get_experiment_configs` produces exactly one config
group per contained file whose name ends in `.yaml` or in the letters
`yml` (the code's missing-dot check, which also admits dotless names
such as `ayml`), in directory order; each config is paired with the
shared argument namespace, and files failing that test contribute
nothing. -/
theorem get_experiment_configs_dir (listdir : Str → List Str)
    (from_yaml : Str → List Benchmark) (args : Args)
    (h : args.benchmark_yaml = []) :
    get_experiment_configs listdir from_yaml args =
      ((listdir args.benchmarks_directory).filter isYamlName).flatMap
        (fun file =>
          (from_yaml (path_join args.benchmarks_directory file)).map
            (fun config => (config, args))) ∧
    (∀ config args',
      (config, args') ∈ get_experiment_configs listdir from_yaml args ↔
        (args' = args ∧ ∃ file ∈ listdir args.benchmarks_directory,
          isYamlName file = true ∧
          config ∈ from_yaml (path_join args.benchmarks_directory file))) := by
  have h1 : get_experiment_configs listdir from_yaml args =
      ((listdir args.benchmarks_directory).filter isYamlName).flatMap
        (fun file =>
          (from_yaml (path_join args.benchmarks_directory file)).map
            (fun config => (config, args))) := by
    simp only [get_experiment_configs, h, ne_eq, not_true_eq_false,
      Bool.false_eq_true, if_false]
    rw [List.flatMap_map, ← List.map_flatMap]
  refine ⟨h1, ?_⟩
  intro config args'
  rw [h1]
  simp only [List.mem_flatMap, List.mem_map, List.mem_filter, Prod.mk.injEq]
  constructor
  · rintro ⟨file, ⟨hfile, hyaml⟩, b, hb, rfl, rfl⟩
    exact ⟨rfl, file, hfile, hyaml, hb⟩
  · rintro ⟨rfl, file, hfile, hyaml, hb⟩
    exact ⟨file, ⟨hfile, hyaml⟩, config, hb, rfl, rfl⟩

/-- Witness for the amended C9 at a concrete directory listing. -/
theorem get_experiment_configs_dir_witness :
    get_experiment_configs (fun _ => ["a.yaml".data, "b.txt".data])
        (fun _ => [⟨"i".data, "p".data, "s".data, "f".data⟩])
        ⟨1, 1, [], [], [], "d".data, [], 30, [], "m".data, "t".data,
          "w".data, false, 0⟩ =
      ((["a.yaml".data, "b.txt".data].filter isYamlName).flatMap
        (fun _file =>
          [(⟨"i".data, "p".data, "s".data, "f".data⟩ : Benchmark)].map
            (fun config => (config,
              (⟨1, 1, [], [], [], "d".data, [], 30, [], "m".data, "t".data,
                "w".data, false, 0⟩ : Args))))) :=
  (get_experiment_configs_dir (fun _ => ["a.yaml".data, "b.txt".data])
    (fun _ => [⟨"i".data, "p".data, "s".data, "f".data⟩])
    ⟨1, 1, [], [], [], "d".data, [], 30, [], "m".data, "t".data,
      "w".data, false, 0⟩ rfl).1

/-! ### Claim theorems for artifact promotion -/

theorem saveLoop_eq_filterMap (covStr : Rat → Str) (rand_id exp_name : Str) :
    ∀ results : List Result,
      saveLoop covStr rand_id exp_name results =
        results.filterMap (fun r =>
          match r.result with
          | ResultValue.aggregated a =>
            if 0 < a.max_line_coverage_diff then
              some (saveNameOf covStr rand_id exp_name r a,
                a.max_coverage_diff_sample)
            else none
          | ResultValue.failure _ => none) := by
  intro results
  induction results with
  | nil => rfl
  | cons r rest ih =>
    cases hr : r.result with
    | aggregated a =>
      by_cases hc : 0 < a.max_line_coverage_diff
      · simp [saveLoop, List.filterMap_cons, hr, hc, ih]
      · simp [saveLoop, List.filterMap_cons, hr, hc, ih]
    | failure e =>
      simp [saveLoop, List.filterMap_cons, hr, ih]

/-- **C6.**  `_save_best_target` uploads exactly the artifacts of
Aggregated results with a strictly positive coverage differential —
results with differential zero or negative, and Failure results, are
skipped — and every performed upload's key concatenates project,
function name, coverage differential, run label (the supplied name, or
else the generated date-hostname label), the random suffix, and the
artifact's original file extension. -/
theorem save_best_target_uploads_iff (covStr : Rat → Str)
    (uuid today hostname : Str) (results : List Result)
    (save_bucket exp_name : Str) :
    save_best_target covStr uuid today hostname results save_bucket exp_name =
      results.filterMap (fun r =>
        match r.result with
        | ResultValue.aggregated a =>
          if 0 < a.max_line_coverage_diff then
            some ("llm_generated_targets/".data ++ r.benchmark.project ++ '/' ::
              (r.benchmark.function_name ++ '-' ::
                (covStr a.max_line_coverage_diff ++ '-' ::
                  ((if exp_name = [] then today ++ '-' :: hostname
                    else exp_name) ++ '-' ::
                    (uuid.takeWhile (fun c => c ≠ '-') ++
                      splitext_ext a.max_coverage_diff_sample)))),
              a.max_coverage_diff_sample)
          else none
        | ResultValue.failure _ => none) ∧
    (∀ e ∈ save_best_target covStr uuid today hostname results save_bucket
        exp_name,
      ∃ r a, r ∈ results ∧ r.result = ResultValue.aggregated a ∧
        0 < a.max_line_coverage_diff ∧ e.2 = a.max_coverage_diff_sample) := by
  have h1 : save_best_target covStr uuid today hostname results save_bucket
      exp_name =
      results.filterMap (fun r =>
        match r.result with
        | ResultValue.aggregated a =>
          if 0 < a.max_line_coverage_diff then
            some (saveNameOf covStr (uuid.takeWhile (fun c => c ≠ '-'))
              (if exp_name = [] then today ++ '-' :: hostname else exp_name)
              r a, a.max_coverage_diff_sample)
          else none
        | ResultValue.failure _ => none) := by
    simp only [save_best_target, saveLoop_eq_filterMap]
  constructor
  · rw [h1]
    rfl
  · intro e he
    rw [h1] at he
    obtain ⟨r, hr, hfr⟩ := List.mem_filterMap.1 he
    cases hres : r.result with
    | aggregated a =>
      rw [hres] at hfr
      by_cases hc : 0 < a.max_line_coverage_diff
      · simp only [hc, if_true, Option.some.injEq] at hfr
        refine ⟨r, a, hr, hres, hc, ?_⟩
        rw [← hfr]
      · simp [hc] at hfr
    | failure msg =>
      rw [hres] at hfr
      simp at hfr

/-- **C10.**  Within one invocation of `_save_best_target`, the random
disambiguating suffix is drawn once, before the loop over the results:
a single `rand_id` value (the first dash-separated group of the UUID)
appears in every uploaded key of that invocation, immediately before
the artifact's file extension. -/
theorem save_best_target_shared_suffix (covStr : Rat → Str)
    (uuid today hostname : Str) (results : List Result)
    (save_bucket exp_name : Str) :
    ∃ rand_id, rand_id = uuid.takeWhile (fun c => c ≠ '-') ∧
      ∀ e ∈ save_best_target covStr uuid today hostname results save_bucket
          exp_name,
        ∃ r a stem, r ∈ results ∧ r.result = ResultValue.aggregated a ∧
          e.1 = stem ++ '-' ::
            (rand_id ++ splitext_ext a.max_coverage_diff_sample) := by
  refine ⟨uuid.takeWhile (fun c => c ≠ '-'), rfl, ?_⟩
  intro e he
  simp only [save_best_target, saveLoop_eq_filterMap] at he
  obtain ⟨r, hr, hfr⟩ := List.mem_filterMap.1 he
  cases hres : r.result with
  | aggregated a =>
    rw [hres] at hfr
    by_cases hc : 0 < a.max_line_coverage_diff
    · simp only [hc, if_true, Option.some.injEq] at hfr
      refine ⟨r, a,
        "llm_generated_targets/".data ++ r.benchmark.project ++ '/' ::
          (r.benchmark.function_name ++ '-' ::
            (covStr a.max_line_coverage_diff ++ '-' ::
              (if exp_name = [] then today ++ '-' :: hostname else exp_name))),
        hr, hres, ?_⟩
      rw [← hfr]
      simp [saveNameOf, List.append_assoc]
    · simp [hc] at hfr
  | failure msg =>
    rw [hres] at hfr
    simp at hfr

/-- Witness for C6: one aggregated result with differential 5; its
upload is in the returned list and the second conjunct identifies its
originating result. -/
theorem save_best_target_uploads_iff_witness :
    ∃ r a, r ∈ [(⟨⟨"i".data, "p".data, "s".data, "f".data⟩,
        ResultValue.aggregated ⟨5, "t.cc".data⟩⟩ : Result)] ∧
      r.result = ResultValue.aggregated a ∧ 0 < a.max_line_coverage_diff ∧
      (("llm_generated_targets/p/f-5-e-ab.cc".data, "t.cc".data) :
        Str × Str).2 = a.max_coverage_diff_sample :=
  (save_best_target_uploads_iff (fun _ => ['5']) "ab-cd".data "d".data
      "h".data
      [⟨⟨"i".data, "p".data, "s".data, "f".data⟩,
        ResultValue.aggregated ⟨5, "t.cc".data⟩⟩] "bkt".data "e".data).2
    ("llm_generated_targets/p/f-5-e-ab.cc".data, "t.cc".data) (by decide)

/-- Witness for C10 at the same concrete invocation: the uploaded key
ends in the dash, the uuid's first group, and the artifact extension. -/
theorem save_best_target_shared_suffix_witness :
    ∃ r a stem, r ∈ [(⟨⟨"i".data, "p".data, "s".data, "f".data⟩,
        ResultValue.aggregated ⟨5, "t.cc".data⟩⟩ : Result)] ∧
      r.result = ResultValue.aggregated a ∧
      (("llm_generated_targets/p/f-5-e-ab.cc".data, "t.cc".data) :
        Str × Str).1 = stem ++ '-' ::
        ("ab".data ++ splitext_ext a.max_coverage_diff_sample) := by
  obtain ⟨rid, hrid, hall⟩ := save_best_target_shared_suffix (fun _ => ['5'])
    "ab-cd".data "d".data "h".data
    [⟨⟨"i".data, "p".data, "s".data, "f".data⟩,
      ResultValue.aggregated ⟨5, "t.cc".data⟩⟩] "bkt".data "e".data
  have hrid' : rid = "ab".data := by
    rw [hrid]
    decide
  have h := hall ("llm_generated_targets/p/f-5-e-ab.cc".data, "t.cc".data)
    (by decide)
  rw [hrid'] at h
  exact h
